import Mathlib

/-!
A verification development for `boundary_alinged_remesh.py`, the single source
file of the blender-boundary-aligned-remesh repository.

The remesher's own logic (edge-band selection, greedy collapse locking,
boundary-aligned vertex relaxation, reprojection, and the driver loop of
`BoundaryAlignedRemesher.remesh`) is embedded as computable functions over a
rational-coordinate mesh model.  The Blender-native topology operators the
source calls (`bmesh.ops.subdivide_edges`, `triangulate`, `dissolve_verts`,
`collapse`, `beautify_fill`, `join_triangles`) are not part of the repository;
they are kept abstract as a record of operator parameters (`MeshOps`), with
concrete instances modelled from the spec where a concrete run is evaluated.

Real-number lengths (`calc_length`, `normalized`) are handled exactly: length
comparisons against a bound are decided by comparing squares, and the sort key
`abs(normalized(n - v.co).dot(dir))` of `align_verts` is decided by its
square, a rational number; bridge lemmas relate both encodings to the real
`Real.sqrt` quantities they stand for.
-/

attribute [local semireducible] Rat.add Rat.mul Rat.sub Rat.inv

set_option maxRecDepth 100000

/-- A 3d vector with exact rational coordinates (the model of `mathutils.Vector`). -/
structure Vec3 where
  x : ℚ
  y : ℚ
  z : ℚ
deriving DecidableEq, Repr

instance : Add Vec3 := ⟨fun a b => ⟨a.x + b.x, a.y + b.y, a.z + b.z⟩⟩

instance : Sub Vec3 := ⟨fun a b => ⟨a.x - b.x, a.y - b.y, a.z - b.z⟩⟩

instance : SMul ℚ Vec3 := ⟨fun q v => ⟨q * v.x, q * v.y, q * v.z⟩⟩

instance : HDiv Vec3 ℚ Vec3 := ⟨fun v q => ⟨v.x / q, v.y / q, v.z / q⟩⟩

/-- The zero vector. -/
def vzero : Vec3 := ⟨0, 0, 0⟩

/-- Dot product (`Vector.dot`). -/
def dot (a b : Vec3) : ℚ := a.x * b.x + a.y * b.y + a.z * b.z

/-- Squared euclidean norm; `Vector.length` squared. -/
def normSq (v : Vec3) : ℚ := dot v v

/-- A mesh vertex: a stable identifier, a position, and the cached vertex
normal bmesh stores on `BMVert.normal`. -/
structure Vert where
  id : Nat
  co : Vec3
  normal : Vec3
deriving DecidableEq, Repr

/-- The bmesh model: vertices carry stable ids; edges and faces reference
vertices by id.  Faces are cyclically ordered vertex lists. -/
structure Mesh where
  verts : List Vert
  edges : List (Nat × Nat)
  faces : List (List Nat)
deriving DecidableEq, Repr

/-- The consecutive (cyclic) vertex pairs of a face. -/
def cyclicPairs (f : List Nat) : List (Nat × Nat) := f.zip (f.rotate 1)

/-- Whether an edge's two endpoints appear as a consecutive (cyclic) pair of
the face, in either direction. -/
def edgeInFace (e : Nat × Nat) (f : List Nat) : Bool :=
  (cyclicPairs f).any fun p => (p.1 == e.1 && p.2 == e.2) || (p.1 == e.2 && p.2 == e.1)

/-- How many faces of the mesh are incident to the edge. -/
def edgeFaceCount (m : Mesh) (e : Nat × Nat) : Nat :=
  (m.faces.filter (edgeInFace e)).length

/-- `BMEdge.is_boundary`: an edge incident to exactly one face. -/
def isBoundaryEdge (m : Mesh) (e : Nat × Nat) : Bool := edgeFaceCount m e == 1

/-- `BMVert.link_edges`: the edges incident to vertex `i`. -/
def linkEdges (m : Mesh) (i : Nat) : List (Nat × Nat) :=
  m.edges.filter fun e => e.1 == i || e.2 == i

/-- `BMVert.is_boundary`: a vertex incident to some boundary edge. -/
def isBoundaryVert (m : Mesh) (i : Nat) : Bool := (linkEdges m i).any (isBoundaryEdge m)

/-- `BMEdge.other_vert`. -/
def otherVert (e : Nat × Nat) (i : Nat) : Nat := if e.1 == i then e.2 else e.1

/-- Look a vertex up by id. -/
def findVert (m : Mesh) (i : Nat) : Option Vert := m.verts.find? fun v => v.id == i

/-- The position of vertex `i` (`vert.co`). -/
def coOf (m : Mesh) (i : Nat) : Vec3 := ((findVert m i).map Vert.co).getD vzero

/-- The cached normal of vertex `i` (`vert.normal`). -/
def normalOf (m : Mesh) (i : Nat) : Vec3 := ((findVert m i).map Vert.normal).getD vzero

/-- The ids of the mesh's vertices in `bm.verts` order. -/
def vertIds (m : Mesh) : List Nat := m.verts.map Vert.id

/-- Assign a new position to vertex `i` (`vert.co = …`). -/
def updateCo (m : Mesh) (i : Nat) (c : Vec3) : Mesh :=
  { m with verts := m.verts.map fun v => if v.id == i then { v with co := c } else v }

/-- `edge.calc_length() > b`, decided square-free: for `b < 0` every length
qualifies, otherwise compare squares.  `d` is the difference of the endpoint
positions. -/
def lenGT (d : Vec3) (b : ℚ) : Bool :=
  if b < 0 then true else decide (b * b < normSq d)

/-- `edge.calc_length() < b`, decided square-free: no length is below a
non-positive bound, otherwise compare squares. -/
def lenLT (d : Vec3) (b : ℚ) : Bool :=
  decide (0 < b) && decide (normSq d < b * b)

/-- The error outcomes the source can raise at run time: `NoBoundary` models
the failure of `nearest_boundary_vector` when the kd-tree holds no boundary
samples (`KDTree.find` yields no index and `boundary_data[index]` faults), and
`zeroValence` models the `ZeroDivisionError` of `i % le` when a vertex has no
incident edges. -/
inductive RemeshErr where
  | noBoundary
  | zeroValence
deriving DecidableEq, Repr

instance {α : Type} [DecidableEq α] : DecidableEq (Except RemeshErr α) := fun a b =>
  match a, b with
  | .ok x, .ok y =>
    if h : x = y then .isTrue (by rw [h]) else .isFalse (by intro hc; cases hc; exact h rfl)
  | .error e, .error f =>
    if h : e = f then .isTrue (by rw [h]) else .isFalse (by intro hc; cases hc; exact h rfl)
  | .ok _, .error _ => .isFalse (by intro hc; cases hc)
  | .error _, .ok _ => .isFalse (by intro hc; cases hc)

/-- The remesher state built by `BoundaryAlignedRemesher.__init__` that the
claims depend on: the boundary samples captured once from the initial mesh,
and the nearest-surface query of the BVH built from the initial mesh.  The BVH
`find_nearest` service is a Blender collaborator, kept abstract as a function
returning the nearest surface location (or nothing, for an empty surface). -/
structure Remesher where
  boundaryData : List (Vec3 × Vec3)
  findNearest : Vec3 → Option Vec3

/-- `__init__`'s boundary scan: for every boundary edge record its midpoint
`(v0.co + v1.co) / 2` and its edge vector `v0.co - v1.co`.  The source stores
the vector normalized; a positive rescaling of the stored direction is
transparent to every later use (the sort key of `align_verts` divides out its
length, see `sortKeySq` and `keyR`), so the exact rational edge vector is
stored here and the normalization folded into the key. -/
def mkBoundaryData (m : Mesh) : List (Vec3 × Vec3) :=
  (m.edges.filter (isBoundaryEdge m)).map fun e =>
    ((coOf m e.1 + coOf m e.2) / (2 : ℚ), coOf m e.1 - coOf m e.2)

/-- Build the remesher state from the initial mesh and a nearest-surface
query. -/
def mkRemesher (m : Mesh) (fn : Vec3 → Option Vec3) : Remesher :=
  ⟨mkBoundaryData m, fn⟩

/-- Squared distance between two points. -/
def sqDist (a b : Vec3) : ℚ := normSq (a - b)

/-- `nearest_boundary_vector`: query the kd-tree for the sample whose midpoint
is nearest to `location` and return its direction.  The kd-tree is modelled by
a first-wins argmin over the samples in insertion order; on an empty tree
`KDTree.find` returns no index and the source faults (`NoBoundary`, see §7 of
the spec). -/
def nearestBoundaryVector (R : Remesher) (location : Vec3) : Except RemeshErr Vec3 :=
  match R.boundaryData with
  | [] => .error .noBoundary
  | d :: ds =>
    .ok (ds.foldl (fun best p =>
      if sqDist p.1 location < sqDist best.1 location then p else best) d).2

/-- Python's `i % le` for a nonnegative modulus: the remainder in `[0, le)`
(Lean's `Int.emod` agrees with Python's `%` for a positive modulus). -/
def pymod (i : Int) (n : Nat) : Nat := (i % (n : Int)).toNat

/-- The square of the sort key of `align_verts`:
`abs(((n_loc - vert.co).normalized()).dot(vec))` squared, i.e.
`(d · w)² / (|d|² |w|²)` for `d = n_loc - vert.co` and `w` the stored boundary
vector.  Squaring is strictly monotone on the nonnegative key values, so
ordering by `sortKeySq` is ordering by the source's key; `keyR_eq_sqrt` below
makes this exact.  `mathutils` normalizes the zero vector to zero, giving key
`0`; both guards reproduce that. -/
def sortKeySq (vco dir nloc : Vec3) : ℚ :=
  if normSq (nloc - vco) = 0 ∨ normSq dir = 0 then 0
  else dot (nloc - vco) dir * dot (nloc - vco) dir / (normSq (nloc - vco) * normSq dir)

/-- The ranked neighbor list `best_locations` of `align_verts`: the neighbor
positions sorted ascending by the key.  Python's `sorted` is a stable
ascending sort, modelled by Mathlib's stable `insertionSort`. -/
def bestLocations (vco dir : Vec3) (ns : List Vec3) : List Vec3 :=
  ns.insertionSort fun a b => sortKeySq vco dir a ≤ sortKeySq vco dir b

/-- One vertex of the `align_verts` loop body: skip boundary vertices; fetch
the nearest boundary direction; rank the neighbor positions; average the
rule-selected ranked neighbors with the vertex position; drop the normal
component of the displacement; move the vertex.  A vertex with no incident
edges faults at `best_locations[i % le]` with a `ZeroDivisionError` whenever
the rule is nonempty (`i % 0` in Python); the explicit guard models that. -/
def alignVertexStep (R : Remesher) (rule : List Int) (m : Mesh) (i : Nat) :
    Except RemeshErr Mesh :=
  if isBoundaryVert m i then .ok m
  else
    match nearestBoundaryVector R (coOf m i) with
    | .error e => .error e
    | .ok vec =>
      let les := linkEdges m i
      let neighborLocations := les.map fun e => coOf m (otherVert e i)
      let best := bestLocations (coOf m i) vec neighborLocations
      let le := les.length
      if le = 0 ∧ rule ≠ [] then .error .zeroValence
      else
        let co0 := rule.foldl (fun c j => c + best.getD (pymod j le) vzero) (coOf m i)
        let co1 := co0 / ((rule.length : ℚ) + 1)
        let co2 := co1 - coOf m i
        let co3 := co2 - (dot co2 (normalOf m i)) • normalOf m i
        .ok (updateCo m i (coOf m i + co3))

/-- The `for vert in self.bm.verts` loop of `align_verts` (without the final
`self.reproject()` call): vertices are visited in list order and each update
is visible to the later ones, as in the in-place Python mutation. -/
def alignAllVerts (R : Remesher) (rule : List Int) (m : Mesh) : Except RemeshErr Mesh :=
  (vertIds m).foldlM (alignVertexStep R rule) m

/-- One vertex of the `reproject` loop: skip boundary vertices, snap the rest
to the nearest point of the frozen original surface, skipping vertices whose
query returns nothing. -/
def reprojectVert (R : Remesher) (m : Mesh) (i : Nat) : Mesh :=
  if isBoundaryVert m i then m
  else
    match R.findNearest (coOf m i) with
    | none => m
    | some location => updateCo m i location

/-- `reproject`. -/
def reprojectAll (R : Remesher) (m : Mesh) : Mesh :=
  (vertIds m).foldl (reprojectVert R) m

/-- `align_verts`: the per-vertex alignment loop followed by the internal
`self.reproject()` call on its last line. -/
def alignVerts (R : Remesher) (rule : List Int) (m : Mesh) : Except RemeshErr Mesh :=
  (alignAllVerts R rule m).map (reprojectAll R)

/-- The Blender-native topology operators `enforce_edge_length` and `remesh`
call.  They are external collaborators of the repository (bmesh built-ins, not
source of this repository), so they are parameters of the model; spec-modelled
concrete instances are given below where a run is evaluated on concrete
input. -/
structure MeshOps where
  subdivideEdges : Mesh → List (Nat × Nat) → Mesh
  triangulate : Mesh → Mesh
  dissolveVerts : Mesh → List Nat → Mesh
  collapse : Mesh → List (Nat × Nat) → Mesh
  beautifyFill : Mesh → Mesh
  joinTriangles : Mesh → Mesh

/-- `upper_length = edge_length + edge_length * bias`. -/
def upperLength (edge_length bias : ℚ) : ℚ := edge_length + edge_length * bias

/-- `lower_length = edge_length - edge_length * bias`. -/
def lowerLength (edge_length bias : ℚ) : ℚ := edge_length - edge_length * bias

/-- The `subdivide` list of `enforce_edge_length`: every edge longer than
`upper_length`. -/
def subdivideSel (m : Mesh) (upper : ℚ) : List (Nat × Nat) :=
  m.edges.filter fun e => lenGT (coOf m e.1 - coOf m e.2) upper

/-- The `dissolve_verts` list of `enforce_edge_length`: every non-boundary
vertex with fewer than 5 incident edges. -/
def dissolveSel (m : Mesh) : List Nat :=
  (m.verts.filter fun v => (linkEdges m v.id).length < 5 && !isBoundaryVert m v.id).map Vert.id

/-- The initial `lock_verts` set: the ids of the boundary vertices. -/
def boundaryLock (m : Mesh) : List Nat :=
  (m.verts.filter fun v => isBoundaryVert m v.id).map Vert.id

/-- One step of the `collapse` selection loop: a short non-boundary edge is
chosen unless an endpoint is already locked, and choosing it locks both
endpoints. -/
def collapseStepAcc (m : Mesh) (lower : ℚ) (acc : List (Nat × Nat) × List Nat)
    (e : Nat × Nat) : List (Nat × Nat) × List Nat :=
  if lenLT (coOf m e.1 - coOf m e.2) lower && !isBoundaryEdge m e then
    if e.1 ∈ acc.2 ∨ e.2 ∈ acc.2 then acc
    else (acc.1 ++ [e], e.1 :: e.2 :: acc.2)
  else acc

/-- The `collapse` list of `enforce_edge_length`: the greedy lock-as-you-go
selection over the edges in mesh order, starting from the boundary lock. -/
def collapseSel (m : Mesh) (lower : ℚ) : List (Nat × Nat) :=
  (m.edges.foldl (collapseStepAcc m lower) ([], boundaryLock m)).1

/-- `enforce_edge_length` (object-mode path): subdivide the long edges,
triangulate, dissolve the low-valence interior vertices, triangulate again,
collapse the greedily selected short edges, and beautify. -/
def enforceEdgeLength (ops : MeshOps) (edge_length bias : ℚ) (m : Mesh) : Mesh :=
  let upper := upperLength edge_length bias
  let lower := lowerLength edge_length bias
  let m1 := ops.triangulate (ops.subdivideEdges m (subdivideSel m upper))
  let m2 := ops.triangulate (ops.dissolveVerts m1 (dissolveSel m1))
  ops.beautifyFill (ops.collapse m2 (collapseSel m2 lower))

/-- The default `bias=0.333` of `enforce_edge_length`, which `remesh` leaves
in place (`remesh` calls `enforce_edge_length(edge_length=edge_length)` and
exposes no bias of its own). -/
def defaultBias : ℚ := 333 / 1000

/-- The rule `remesh` selects: `(-1, -2, 0, 1)` for quads, `(0, 1, 2, 3)` for
triangles. -/
def ruleFor (quads : Bool) : List Int :=
  if quads then [-1, -2, 0, 1] else [0, 1, 2, 3]

/-- The `for _ in range(iterations)` loop of `remesh`: each pass runs
`enforce_edge_length` (with the default bias), `align_verts` (which ends with
an internal `reproject`), and then `reproject` again; a raised error aborts
the run as a Python exception would. -/
def remeshLoop (ops : MeshOps) (R : Remesher) (edge_length : ℚ) (rule : List Int) :
    Nat → Mesh → Except RemeshErr Mesh
  | 0, m => .ok m
  | Nat.succ n, m =>
    match alignVerts R rule (enforceEdgeLength ops edge_length defaultBias m) with
    | .error e => .error e
    | .ok m1 => remeshLoop ops R edge_length rule n (reprojectAll R m1)

/-- `remesh` (object-mode path, up to the host write-back glue): choose the
rule, run the loop, and join triangles into quads when requested. -/
def remeshRun (ops : MeshOps) (R : Remesher) (edge_length : ℚ) (iterations : Nat)
    (quads : Bool) (m : Mesh) : Except RemeshErr Mesh :=
  (remeshLoop ops R edge_length (ruleFor quads) iterations m).map fun m' =>
    if quads then ops.joinTriangles m' else m'

/-- `subdivide_long_edges(upper)` as one named pipeline step. -/
def subdivideStep (ops : MeshOps) (upper : ℚ) (m : Mesh) : Mesh :=
  ops.subdivideEdges m (subdivideSel m upper)

/-- `triangulate()` as one named pipeline step. -/
def triangulateStep (ops : MeshOps) (m : Mesh) : Mesh := ops.triangulate m

/-- `dissolve_low_valence_interior_vertices(5)` as one named pipeline step. -/
def dissolveStep (ops : MeshOps) (m : Mesh) : Mesh := ops.dissolveVerts m (dissolveSel m)

/-- `collapse_short_edges(lower)` as one named pipeline step. -/
def collapseStep (ops : MeshOps) (lower : ℚ) (m : Mesh) : Mesh :=
  ops.collapse m (collapseSel m lower)

/-- `beautify("angle")` as one named pipeline step. -/
def beautifyStep (ops : MeshOps) (m : Mesh) : Mesh := ops.beautifyFill m

/-- The spec's per-pass operator sequence, assembled step by step in the
spec's order — subdivide long edges, triangulate, dissolve low-valence
interior vertices, triangulate, collapse short edges, beautify, align all
non-boundary vertices, reproject — with reprojection occurring twice at the
end, once from inside `align_verts` and once from the driver. -/
def specPassSequence (ops : MeshOps) (R : Remesher) (edge_length : ℚ) (rule : List Int)
    (m : Mesh) : Except RemeshErr Mesh :=
  let m1 := beautifyStep ops (collapseStep ops (lowerLength edge_length defaultBias)
    (triangulateStep ops (dissolveStep ops (triangulateStep ops
      (subdivideStep ops (upperLength edge_length defaultBias) m)))))
  (alignAllVerts R rule m1).map fun m2 => reprojectAll R (reprojectAll R m2)

/-- Sum of a list of vectors. -/
def vsum (l : List Vec3) : Vec3 := l.foldl (· + ·) vzero

/-- The neighbors a rule selects from the ranked list: entry `j` of the rule
picks `best_locations[j % le]`. -/
def specSelected (best : List Vec3) (le : Nat) (rule : List Int) : List Vec3 :=
  rule.map fun j => best.getD (pymod j le) vzero

/-- The spec's averaged position
`new_pos = (v.position + Σ selected_neighbor_positions) / (len(rule) + 1)`. -/
def specNewPos (vco : Vec3) (selected : List Vec3) : Vec3 :=
  (vco + vsum selected) / ((selected.length : ℚ) + 1)

/-- Remove from `d` its component along `n` (projection onto the tangent
plane at a vertex with unit normal `n`). -/
def tangentProject (d n : Vec3) : Vec3 := d - (dot d n) • n

/-- The spec's aligned position: apply the tangentially projected displacement
`new_pos - v.position` to `v.position`. -/
def specAlignedPos (vco n newPos : Vec3) : Vec3 := vco + tangentProject (newPos - vco) n

/-- A 3d vector over the reals, for stating what the rational encodings stand
for. -/
structure RVec3 where
  x : ℝ
  y : ℝ
  z : ℝ

/-- Cast a rational vector to the reals. -/
def Vec3.toR (v : Vec3) : RVec3 := ⟨(v.x : ℝ), (v.y : ℝ), (v.z : ℝ)⟩

/-- Real dot product. -/
noncomputable def dotR (a b : RVec3) : ℝ := a.x * b.x + a.y * b.y + a.z * b.z

/-- Real euclidean norm. -/
noncomputable def normR (a : RVec3) : ℝ := Real.sqrt (dotR a a)

/-- `Vector.normalized()` over the reals: divide by the length; `mathutils`
maps the zero vector to the zero vector, as does division by zero here. -/
noncomputable def normalizeR (a : RVec3) : RVec3 :=
  ⟨a.x / normR a, a.y / normR a, a.z / normR a⟩

/-- The source's sort key of `align_verts`, exactly:
`abs(((n_loc - vert.co).normalized()).dot(dir_normalized))`, with `dir` the
unit boundary direction the source stores (here recovered by normalizing the
stored exact edge vector). -/
noncomputable def keyR (vco dir nloc : Vec3) : ℝ :=
  |dotR (normalizeR (Vec3.toR (nloc - vco))) (normalizeR (Vec3.toR dir))|

/-- An unordered edge as an ordered pair. -/
def normPair (e : Nat × Nat) : Nat × Nat := if e.1 ≤ e.2 then e else (e.2, e.1)

/-- The distinct edges of a face list, in first-occurrence order. -/
def edgesFromFaces (faces : List (List Nat)) : List (Nat × Nat) :=
  faces.foldl (fun acc f =>
    (cyclicPairs f).foldl (fun acc2 p =>
      if normPair p ∈ acc2 then acc2 else acc2 ++ [normPair p]) acc) []

/-- Build a mesh from vertex data and faces, deriving the edge table from the
faces (the edge table `bmesh.from_mesh` holds for a well-formed mesh). -/
def mkMeshFromFaces (vs : List Vert) (fs : List (List Nat)) : Mesh :=
  ⟨vs, edgesFromFaces fs, fs⟩

/-- A vertex id unused by the mesh. -/
def freshId (m : Mesh) : Nat := (m.verts.foldl (fun a v => max a v.id) 0) + 1

/-- Insert `mid` between the cyclically consecutive endpoints `a` and `b` of a
face (faces not containing the edge are unchanged). -/
def spliceMid (a b mid : Nat) (f : List Nat) : List Nat :=
  (cyclicPairs f).flatMap fun p =>
    if (p.1 == a && p.2 == b) || (p.1 == b && p.2 == a) then [p.1, mid] else [p.1]

/-- Modelled from the spec: `subdivide_long_edges` splits an edge at its
midpoint (one cut) — `bmesh.ops.subdivide_edges` with `cuts=1` is not source
of this repository.  A fresh vertex is placed at the midpoint (normal averaged
from the endpoints), the edge is replaced by its two halves, and the midpoint
is spliced into the faces across the edge; the `triangulate()` call that
follows in `enforce_edge_length` re-triangulates the resulting n-gons. -/
def splitEdge (m : Mesh) (e : Nat × Nat) : Mesh :=
  let mid := freshId m
  let cmid := (coOf m e.1 + coOf m e.2) / (2 : ℚ)
  let nmid := (normalOf m e.1 + normalOf m e.2) / (2 : ℚ)
  { verts := m.verts ++ [⟨mid, cmid, nmid⟩],
    edges := (m.edges.filter fun e' => !(e' == e)) ++ [(e.1, mid), (mid, e.2)],
    faces := m.faces.map (spliceMid e.1 e.2 mid) }

/-- Modelled from the spec: subdivide every selected edge in order. -/
def subdivideEdgesSpec (m : Mesh) (sel : List (Nat × Nat)) : Mesh :=
  sel.foldl splitEdge m

/-- Fan-triangulate one face from its first vertex (triangles are returned
unchanged). -/
def fanFace (f : List Nat) : List (List Nat) :=
  match f with
  | a :: b :: c :: rest => ((b :: c :: rest).zip (c :: rest)).map fun p => [a, p.1, p.2]
  | _ => [f]

/-- Append the face edges missing from an edge table. -/
def addFaceEdges (edges : List (Nat × Nat)) (faces : List (List Nat)) : List (Nat × Nat) :=
  faces.foldl (fun acc f =>
    (cyclicPairs f).foldl (fun acc2 p =>
      if normPair p ∈ acc2 then acc2 else acc2 ++ [normPair p]) acc) edges

/-- Modelled from the spec: `triangulate()` splits every n-gon into a fan of
triangles (`bmesh.ops.triangulate` is not source of this repository); the new
diagonals join the edge table. -/
def triangulateSpec (m : Mesh) : Mesh :=
  let fs := m.faces.flatMap fanFace
  { m with edges := addFaceEdges m.edges fs, faces := fs }

/-- Chain link segments into a path: follow, from `cur`, the first segment
touching it, consuming segments as they are used. -/
def chainSegs (fuel : Nat) (cur : Nat) (segs : List (Nat × Nat)) : List Nat :=
  match fuel with
  | 0 => []
  | Nat.succ fuel' =>
    match segs.find? (fun s => s.1 == cur || s.2 == cur) with
    | none => []
    | some s =>
      let nxt := if s.1 == cur then s.2 else s.1
      nxt :: chainSegs fuel' nxt (segs.erase s)

/-- The ring polygon around vertex `i`: the far sides of the star faces of
`i`, chained into a cycle (the closing duplicate of the start is dropped). -/
def linkRing (m : Mesh) (i : Nat) : List Nat :=
  let star := m.faces.filter fun f => f.contains i
  let segs := star.flatMap fun f =>
    (cyclicPairs f).filter fun p => !(p.1 == i) && !(p.2 == i)
  match segs with
  | [] => []
  | s :: rest =>
    let c := chainSegs rest.length s.2 rest
    s.1 :: s.2 :: (if c.getLast? == some s.1 then c.dropLast else c)

/-- Modelled from the spec: `dissolve_low_valence_interior_vertices` removes a
vertex and merges its surrounding faces into the single ring face
(`bmesh.ops.dissolve_verts` is not source of this repository); the
`triangulate()` call that follows in `enforce_edge_length` re-triangulates the
ring. -/
def dissolveOne (m : Mesh) (i : Nat) : Mesh :=
  let ring := linkRing m i
  { verts := m.verts.filter fun v => !(v.id == i),
    edges := m.edges.filter fun e => !(e.1 == i) && !(e.2 == i),
    faces := (m.faces.filter fun f => !(f.contains i))
      ++ (if 3 ≤ ring.length then [ring] else []) }

/-- Modelled from the spec: dissolve every selected vertex in order. -/
def dissolveVertsSpec (m : Mesh) (sel : List Nat) : Mesh :=
  sel.foldl dissolveOne m

/-- Whether a vertex list repeats an id. -/
def hasDup : List Nat → Bool
  | [] => false
  | x :: xs => xs.contains x || hasDup xs

/-- Drop repeated edges, keeping first occurrences. -/
def dedupEdges (es : List (Nat × Nat)) : List (Nat × Nat) :=
  es.foldl (fun acc e => if e ∈ acc then acc else acc ++ [e]) []

/-- Modelled from the spec: `collapse_short_edges` collapses an edge's two
endpoints into one at the midpoint, removing the edge and its degenerate
faces (`bmesh.ops.collapse` is not source of this repository).  The second
endpoint is merged into the first, which moves to the midpoint; edges are
renamed accordingly, self-loops and duplicates dropped; faces left with a
repeated vertex are degenerate and removed. -/
def collapseOne (m : Mesh) (e : Nat × Nat) : Mesh :=
  let a := e.1
  let b := e.2
  let mid := (coOf m a + coOf m b) / (2 : ℚ)
  let sub := fun j => if j == b then a else j
  { verts := (m.verts.filter fun v => !(v.id == b)).map fun v =>
      if v.id == a then { v with co := mid } else v,
    edges := dedupEdges ((m.edges.map fun e' => normPair (sub e'.1, sub e'.2)).filter
      fun e' => !(e'.1 == e'.2)),
    faces := (m.faces.map fun f => f.map sub).filter fun f => !hasDup f }

/-- Modelled from the spec: collapse every selected edge in order. -/
def collapseSpec (m : Mesh) (sel : List (Nat × Nat)) : Mesh :=
  sel.foldl collapseOne m

/-- Modelled from the spec: `beautify` is an edge-flip relaxation of interior
diagonals — it neither creates, deletes, nor moves any vertex
(`bmesh.ops.beautify_fill` is not source of this repository).  The instance
used for concrete runs is the identity, a mesh already at a local fixed point
of the flip relaxation; no claim settled here depends on which diagonals are
flipped. -/
def beautifyFillSpec (m : Mesh) : Mesh := m

/-- Modelled from the spec: `join_coplanar_triangle_pairs` merges triangle
pairs into quads and neither creates, deletes, nor moves any vertex
(`bmesh.ops.join_triangles` is not source of this repository).  The instance
used for concrete runs is the identity; no claim settled here depends on which
pairs merge. -/
def joinTrianglesSpec (m : Mesh) : Mesh := m

/-- The spec-modelled operator instances used to evaluate concrete runs. -/
def modelOps : MeshOps :=
  ⟨subdivideEdgesSpec, triangulateSpec, dissolveVertsSpec, collapseSpec,
    beautifyFillSpec, joinTrianglesSpec⟩

/-- Identity operator instances, used to instantiate contract-parameterized
theorems at concrete input. -/
def idOps : MeshOps :=
  ⟨fun m _ => m, fun m => m, fun m _ => m, fun m _ => m, fun m => m, fun m => m⟩

/-- A flat unit normal used by the flat test meshes. -/
def nUp : Vec3 := ⟨0, 0, 1⟩

/-- A flat square of two triangles; every vertex lies on the boundary. -/
def sqMesh : Mesh := mkMeshFromFaces
  [⟨0, ⟨-2, -2, 0⟩, nUp⟩, ⟨1, ⟨2, -2, 0⟩, nUp⟩, ⟨2, ⟨2, 2, 0⟩, nUp⟩, ⟨3, ⟨-2, 2, 0⟩, nUp⟩]
  [[0, 1, 2], [0, 2, 3]]

/-- A flat square fan around an interior center vertex `4`. -/
def fanMesh : Mesh := mkMeshFromFaces
  [⟨0, ⟨-1, -1, 0⟩, nUp⟩, ⟨1, ⟨1, -1, 0⟩, nUp⟩, ⟨2, ⟨1, 1, 0⟩, nUp⟩, ⟨3, ⟨-1, 1, 0⟩, nUp⟩,
    ⟨4, ⟨1/4, 1/8, 0⟩, nUp⟩]
  [[0, 1, 4], [1, 2, 4], [2, 3, 4], [3, 0, 4]]

/-- A triangle plus an isolated vertex `3` (no incident edges, hence interior). -/
def isoMesh : Mesh := mkMeshFromFaces
  [⟨0, ⟨0, 0, 0⟩, nUp⟩, ⟨1, ⟨4, 0, 0⟩, nUp⟩, ⟨2, ⟨0, 4, 0⟩, nUp⟩, ⟨3, ⟨9, 9, 9⟩, nUp⟩]
  [[0, 1, 2]]

/-- A single triangle with edge lengths 1.2, 0.5 and 1.3. -/
def triMesh : Mesh := mkMeshFromFaces
  [⟨0, ⟨0, 0, 0⟩, nUp⟩, ⟨1, ⟨6/5, 0, 0⟩, nUp⟩, ⟨2, ⟨0, 1/2, 0⟩, nUp⟩]
  [[0, 1, 2]]

/-- The golden-ratio coordinate of the rational icosahedron, `5 × 1.618`. -/
def phi5 : ℚ := 809 / 100

/-- A closed icosahedral mesh (no boundary edges, every vertex of valence 5)
whose vertex `0` has been moved toward vertex `1` so that exactly the edge
`(0, 1)` is shorter than the collapse bound of an `edge_length = 11` pass,
while every edge stays below the subdivision bound. -/
def icoMesh : Mesh := mkMeshFromFaces
  [⟨0, ⟨-2, phi5, 0⟩, nUp⟩, ⟨1, ⟨5, phi5, 0⟩, nUp⟩,
    ⟨2, ⟨-5, -phi5, 0⟩, nUp⟩, ⟨3, ⟨5, -phi5, 0⟩, nUp⟩,
    ⟨4, ⟨0, -5, phi5⟩, nUp⟩, ⟨5, ⟨0, 5, phi5⟩, nUp⟩,
    ⟨6, ⟨0, -5, -phi5⟩, nUp⟩, ⟨7, ⟨0, 5, -phi5⟩, nUp⟩,
    ⟨8, ⟨phi5, 0, -5⟩, nUp⟩, ⟨9, ⟨phi5, 0, 5⟩, nUp⟩,
    ⟨10, ⟨-phi5, 0, -5⟩, nUp⟩, ⟨11, ⟨-phi5, 0, 5⟩, nUp⟩]
  [[0, 11, 5], [0, 5, 1], [0, 1, 7], [0, 7, 10], [0, 10, 11],
    [1, 5, 9], [5, 11, 4], [11, 10, 2], [10, 7, 6], [7, 1, 8],
    [3, 9, 4], [3, 4, 2], [3, 2, 6], [3, 6, 8], [3, 8, 9],
    [4, 9, 5], [2, 4, 11], [6, 2, 10], [8, 6, 7], [9, 8, 1]]

/-- The remesher state built from the square. -/
def sqRemesher : Remesher := mkRemesher sqMesh fun p => some p

/-- The remesher state built from the fan. -/
def fanRemesher : Remesher := mkRemesher fanMesh fun p => some p

/-- The remesher state built from the triangle-plus-isolated-vertex mesh. -/
def isoRemesher : Remesher := mkRemesher isoMesh fun p => some p

/-- The remesher state built from the closed icosahedron: its boundary sample
list is empty. -/
def icoRemesher : Remesher := mkRemesher icoMesh fun p => some p

/-- The boundary-vertex preservation property relating a mesh to a later state
of the run: every boundary vertex is still a boundary vertex and still holds
its exact position. -/
def stepPres (m m' : Mesh) : Prop :=
  ∀ j, isBoundaryVert m j = true → isBoundaryVert m' j = true ∧ coOf m' j = coOf m j

/-- Two edges share no endpoint. -/
def edgesDisjoint (e1 e2 : Nat × Nat) : Prop :=
  e1.1 ≠ e2.1 ∧ e1.1 ≠ e2.2 ∧ e1.2 ≠ e2.1 ∧ e1.2 ≠ e2.2

/-- Every edge endpoint names a vertex of the mesh (bmesh guarantees this for
any loaded mesh). -/
def wfMesh (m : Mesh) : Bool :=
  m.edges.all fun e => (vertIds m).contains e.1 && (vertIds m).contains e.2

/-- The invariant of the greedy collapse-selection loop: the lock covers the
boundary lock and both endpoints of every chosen edge; chosen edges avoid the
boundary lock, are non-boundary edges, have registered endpoints, and are
pairwise vertex-disjoint. -/
def collapseAccInv (m : Mesh) (acc : List (Nat × Nat) × List Nat) : Prop :=
  (∀ i ∈ boundaryLock m, i ∈ acc.2) ∧
  (∀ e ∈ acc.1, e.1 ∈ acc.2 ∧ e.2 ∈ acc.2) ∧
  (∀ e ∈ acc.1, e.1 ∉ boundaryLock m ∧ e.2 ∉ boundaryLock m) ∧
  (∀ e ∈ acc.1, isBoundaryEdge m e = false) ∧
  acc.1.Pairwise edgesDisjoint

/-- The boundary-preservation contracts of the external bmesh topology
operators, as the spec states them: subdivision, triangulation, beautify and
quad-join keep every boundary vertex in place and on the boundary;
dissolution does so when no selected vertex is a boundary vertex; collapse
does so when no selected edge touches a locked (boundary) vertex. -/
structure OpsPreserveBoundary (ops : MeshOps) : Prop where
  subdivide : ∀ m sel, stepPres m (ops.subdivideEdges m sel)
  triangulate : ∀ m, stepPres m (ops.triangulate m)
  dissolve : ∀ m sel, (∀ i ∈ sel, isBoundaryVert m i = false) →
    stepPres m (ops.dissolveVerts m sel)
  collapse : ∀ m sel, (∀ e ∈ sel, e.1 ∉ boundaryLock m ∧ e.2 ∉ boundaryLock m) →
    stepPres m (ops.collapse m sel)
  beautify : ∀ m, stepPres m (ops.beautifyFill m)
  join : ∀ m, stepPres m (ops.joinTriangles m)

/-- Every non-boundary vertex of the mesh has at least one incident edge. -/
def allInteriorHaveEdges (m : Mesh) : Bool :=
  m.verts.all fun v => isBoundaryVert m v.id || !(linkEdges m v.id).isEmpty

/-- Some vertex of the mesh is not a boundary vertex. -/
def hasInteriorVert (m : Mesh) : Bool :=
  m.verts.any fun v => !isBoundaryVert m v.id

/-- The three guarantees of one collapse selection: chosen edges are pairwise
vertex-disjoint, none is a boundary edge, and none touches a boundary
vertex. -/
def collapseSelOK (m : Mesh) (lower : ℚ) : Prop :=
  (collapseSel m lower).Pairwise edgesDisjoint ∧
  (∀ e ∈ collapseSel m lower, isBoundaryEdge m e = false) ∧
  (∀ e ∈ collapseSel m lower, isBoundaryVert m e.1 = false ∧ isBoundaryVert m e.2 = false)

@[simp] theorem Vec3.add_x (a b : Vec3) : (a + b).x = a.x + b.x := rfl

@[simp] theorem Vec3.add_y (a b : Vec3) : (a + b).y = a.y + b.y := rfl

@[simp] theorem Vec3.add_z (a b : Vec3) : (a + b).z = a.z + b.z := rfl

@[simp] theorem Vec3.sub_x (a b : Vec3) : (a - b).x = a.x - b.x := rfl

@[simp] theorem Vec3.sub_y (a b : Vec3) : (a - b).y = a.y - b.y := rfl

@[simp] theorem Vec3.sub_z (a b : Vec3) : (a - b).z = a.z - b.z := rfl

@[simp] theorem Vec3.smul_x (q : ℚ) (v : Vec3) : (q • v).x = q * v.x := rfl

@[simp] theorem Vec3.smul_y (q : ℚ) (v : Vec3) : (q • v).y = q * v.y := rfl

@[simp] theorem Vec3.smul_z (q : ℚ) (v : Vec3) : (q • v).z = q * v.z := rfl

@[simp] theorem Vec3.div_x (v : Vec3) (q : ℚ) : (v / q).x = v.x / q := rfl

@[simp] theorem Vec3.div_y (v : Vec3) (q : ℚ) : (v / q).y = v.y / q := rfl

@[simp] theorem Vec3.div_z (v : Vec3) (q : ℚ) : (v / q).z = v.z / q := rfl

@[simp] theorem vzero_x : vzero.x = 0 := rfl

@[simp] theorem vzero_y : vzero.y = 0 := rfl

@[simp] theorem vzero_z : vzero.z = 0 := rfl

theorem Vec3.ext_iff' (a b : Vec3) : a = b ↔ a.x = b.x ∧ a.y = b.y ∧ a.z = b.z := by
  constructor
  · intro h; rw [h]; exact ⟨rfl, rfl, rfl⟩
  · rintro ⟨h1, h2, h3⟩; cases a; cases b; simp_all

theorem normSq_nonneg (v : Vec3) : 0 ≤ normSq v := by
  have hx := mul_self_nonneg v.x
  have hy := mul_self_nonneg v.y
  have hz := mul_self_nonneg v.z
  unfold normSq dot
  linarith

theorem normSq_eq_zero_iff (v : Vec3) : normSq v = 0 ↔ v = vzero := by
  unfold normSq dot
  constructor
  · intro h
    have hx := mul_self_nonneg v.x
    have hy := mul_self_nonneg v.y
    have hz := mul_self_nonneg v.z
    have hx0 : v.x * v.x = 0 := by linarith
    have hy0 : v.y * v.y = 0 := by linarith
    have hz0 : v.z * v.z = 0 := by linarith
    rw [Vec3.ext_iff']
    refine ⟨?_, ?_, ?_⟩ <;> simp only [vzero_x, vzero_y, vzero_z]
    · exact mul_self_eq_zero.mp hx0
    · exact mul_self_eq_zero.mp hy0
    · exact mul_self_eq_zero.mp hz0
  · intro h; rw [h]; norm_num

theorem lenGT_iff (d : Vec3) (b : ℚ) :
    lenGT d b = true ↔ (b : ℝ) < Real.sqrt ((normSq d : ℚ) : ℝ) := by
  unfold lenGT
  by_cases hb : b < 0
  · simp only [hb, if_true, true_iff]
    have h1 : ((b : ℚ) : ℝ) < 0 := by exact_mod_cast hb
    exact lt_of_lt_of_le h1 (Real.sqrt_nonneg _)
  · simp only [hb, if_false, decide_eq_true_eq]
    have hb' : (0 : ℝ) ≤ (b : ℝ) := by
      have : (0 : ℚ) ≤ b := le_of_not_lt hb
      exact_mod_cast this
    constructor
    · intro h
      have h' : ((b * b : ℚ) : ℝ) < ((normSq d : ℚ) : ℝ) := by exact_mod_cast h
      have h'' : (b : ℝ) ^ 2 < ((normSq d : ℚ) : ℝ) := by push_cast at h' ⊢; nlinarith
      exact (Real.lt_sqrt hb').mpr h''
    · intro h
      have h'' : (b : ℝ) ^ 2 < ((normSq d : ℚ) : ℝ) := (Real.lt_sqrt hb').mp h
      have : ((b * b : ℚ) : ℝ) < ((normSq d : ℚ) : ℝ) := by push_cast at h'' ⊢; nlinarith
      exact_mod_cast this

theorem lenLT_iff (d : Vec3) (b : ℚ) :
    lenLT d b = true ↔ Real.sqrt ((normSq d : ℚ) : ℝ) < (b : ℝ) := by
  unfold lenLT
  simp only [Bool.and_eq_true, decide_eq_true_eq]
  constructor
  · rintro ⟨hb, h⟩
    have hsq : ((normSq d : ℚ) : ℝ) < (b : ℝ) ^ 2 := by
      have : ((normSq d : ℚ) : ℝ) < ((b * b : ℚ) : ℝ) := by exact_mod_cast h
      push_cast at this ⊢; nlinarith
    have hb' : (0 : ℝ) < (b : ℝ) := by exact_mod_cast hb
    exact (Real.sqrt_lt' hb').mpr hsq
  · intro h
    have hb : (0 : ℚ) < b := by
      by_contra hc
      push_neg at hc
      have hb' : ((b : ℚ) : ℝ) ≤ 0 := by exact_mod_cast hc
      exact absurd (lt_of_le_of_lt (Real.sqrt_nonneg _) h) (not_lt.mpr hb')
    refine ⟨hb, ?_⟩
    have hb' : (0 : ℝ) < (b : ℝ) := by exact_mod_cast hb
    have hsq := (Real.sqrt_lt' hb').mp h
    have : ((normSq d : ℚ) : ℝ) < ((b * b : ℚ) : ℝ) := by push_cast at hsq ⊢; nlinarith
    exact_mod_cast this

theorem pymod_lt (i : Int) (n : Nat) (hn : n ≠ 0) : pymod i n < n := by
  unfold pymod
  have hpos : (0 : Int) < (n : Int) := by exact_mod_cast Nat.pos_of_ne_zero hn
  have h1 : i % (n : Int) < (n : Int) := Int.emod_lt_of_pos i hpos
  have h2 : 0 ≤ i % (n : Int) := Int.emod_nonneg i (by exact_mod_cast hn)
  omega

theorem dotR_toR (a b : Vec3) : dotR (Vec3.toR a) (Vec3.toR b) = ((dot a b : ℚ) : ℝ) := by
  unfold dotR Vec3.toR dot
  push_cast
  ring

theorem normR_toR (v : Vec3) : normR (Vec3.toR v) = Real.sqrt ((normSq v : ℚ) : ℝ) := by
  unfold normR
  rw [dotR_toR]
  rfl

theorem dotR_normalizeR (u v : RVec3) :
    dotR (normalizeR u) (normalizeR v) = dotR u v / (normR u * normR v) := by
  unfold normalizeR dotR
  rw [div_mul_div_comm, div_mul_div_comm, div_mul_div_comm, div_add_div_same, div_add_div_same]

/-- The rational square `sortKeySq` is exactly the square of the source's sort
key: the key is the square root of `sortKeySq`. -/
theorem keyR_eq_sqrt (vco dir nloc : Vec3) :
    keyR vco dir nloc = Real.sqrt ((sortKeySq vco dir nloc : ℚ) : ℝ) := by
  unfold keyR sortKeySq
  by_cases h0 : normSq (nloc - vco) = 0 ∨ normSq dir = 0
  · rw [if_pos h0]
    rcases h0 with h | h
    · have hz : nloc - vco = vzero := (normSq_eq_zero_iff _).mp h
      rw [hz]
      have hdot : dotR (normalizeR (Vec3.toR vzero)) (normalizeR (Vec3.toR dir)) = 0 := by
        unfold normalizeR dotR Vec3.toR vzero
        push_cast
        simp
      rw [hdot]
      simp
    · have hz : dir = vzero := (normSq_eq_zero_iff dir).mp h
      rw [hz]
      have hdot : dotR (normalizeR (Vec3.toR (nloc - vco))) (normalizeR (Vec3.toR vzero)) = 0 := by
        unfold normalizeR dotR Vec3.toR vzero
        push_cast
        simp
      rw [hdot]
      simp
  · push_neg at h0
    obtain ⟨hnd, hnw⟩ := h0
    have hdpos : (0 : ℚ) < normSq (nloc - vco) :=
      lt_of_le_of_ne (normSq_nonneg _) (Ne.symm hnd)
    have hwpos : (0 : ℚ) < normSq dir := lt_of_le_of_ne (normSq_nonneg dir) (Ne.symm hnw)
    rw [if_neg (by push_neg; exact ⟨hnd, hnw⟩)]
    rw [dotR_normalizeR, normR_toR, normR_toR, dotR_toR]
    have hdR : (0:ℝ) ≤ ((normSq (nloc - vco) : ℚ) : ℝ) := by exact_mod_cast le_of_lt hdpos
    have hq : ((dot (nloc - vco) dir * dot (nloc - vco) dir
          / (normSq (nloc - vco) * normSq dir) : ℚ) : ℝ)
        = ((dot (nloc - vco) dir : ℚ) : ℝ) ^ 2
          / (((normSq (nloc - vco) : ℚ) : ℝ) * ((normSq dir : ℚ) : ℝ)) := by
      push_cast
      ring
    rw [hq, Real.sqrt_div (sq_nonneg _), Real.sqrt_sq_eq_abs, Real.sqrt_mul hdR]
    rw [abs_div]
    congr 1
    rw [abs_of_nonneg (mul_nonneg (Real.sqrt_nonneg _) (Real.sqrt_nonneg _))]

theorem sortKeySq_nonneg (vco dir nloc : Vec3) : 0 ≤ sortKeySq vco dir nloc := by
  unfold sortKeySq
  by_cases h : normSq (nloc - vco) = 0 ∨ normSq dir = 0
  · rw [if_pos h]
  · rw [if_neg h]
    exact div_nonneg (mul_self_nonneg _) (mul_nonneg (normSq_nonneg _) (normSq_nonneg _))

/-- Ordering by the rational squares is ordering by the source's key. -/
theorem keyR_le_iff (vco dir a b : Vec3) :
    keyR vco dir a ≤ keyR vco dir b ↔ sortKeySq vco dir a ≤ sortKeySq vco dir b := by
  rw [keyR_eq_sqrt, keyR_eq_sqrt,
    Real.sqrt_le_sqrt_iff (by exact_mod_cast sortKeySq_nonneg vco dir b)]
  exact ⟨fun h => by exact_mod_cast h, fun h => by exact_mod_cast h⟩

theorem stepPres_refl (m : Mesh) : stepPres m m := fun _ hj => ⟨hj, rfl⟩

theorem stepPres_trans {a b c : Mesh} (h1 : stepPres a b) (h2 : stepPres b c) :
    stepPres a c := by
  intro j hj
  obtain ⟨hb, hc⟩ := h1 j hj
  obtain ⟨hb', hc'⟩ := h2 j hb
  exact ⟨hb', hc'.trans hc⟩

theorem updateCo_edges (m : Mesh) (i : Nat) (c : Vec3) : (updateCo m i c).edges = m.edges := rfl

theorem updateCo_faces (m : Mesh) (i : Nat) (c : Vec3) : (updateCo m i c).faces = m.faces := rfl

theorem isBoundaryVert_updateCo (m : Mesh) (i : Nat) (c : Vec3) (j : Nat) :
    isBoundaryVert (updateCo m i c) j = isBoundaryVert m j := rfl

theorem vertIds_updateCo (m : Mesh) (i : Nat) (c : Vec3) :
    vertIds (updateCo m i c) = vertIds m := by
  unfold vertIds updateCo
  simp only [List.map_map]
  apply List.map_congr_left
  intro v _
  by_cases hv : v.id == i <;> simp [Function.comp, hv]

theorem find?_updateVert (l : List Vert) (i : Nat) (c : Vec3) (j : Nat) (h : j ≠ i) :
    (l.map fun v => if v.id == i then { v with co := c } else v).find? (fun v => v.id == j)
      = l.find? fun v => v.id == j := by
  induction l with
  | nil => rfl
  | cons v l ih =>
    simp only [List.map_cons, List.find?_cons]
    have hgid : (if (v.id == i) = true then { v with co := c } else v).id = v.id := by
      by_cases hv : v.id = i <;> simp [hv]
    rw [hgid]
    cases hvj : (v.id == j) with
    | true =>
      have hvi : (v.id == i) = false := by
        have hj' : v.id = j := by simpa using hvj
        rw [hj', beq_eq_false_iff_ne]
        exact h
      simp [hvi]
    | false => exact ih

theorem coOf_updateCo_ne (m : Mesh) (i : Nat) (c : Vec3) (j : Nat) (h : j ≠ i) :
    coOf (updateCo m i c) j = coOf m j := by
  unfold coOf findVert updateCo
  simp only
  rw [find?_updateVert m.verts i c j h]

theorem alignVertexStep_stepPres {R : Remesher} {rule : List Int} {m : Mesh} {i : Nat}
    {m' : Mesh} (h : alignVertexStep R rule m i = .ok m') : stepPres m m' := by
  unfold alignVertexStep at h
  by_cases hb : isBoundaryVert m i
  · rw [if_pos hb] at h
    injection h with h'
    subst h'
    exact stepPres_refl m
  · rw [if_neg hb] at h
    cases hnv : nearestBoundaryVector R (coOf m i) with
    | error e => rw [hnv] at h; cases h
    | ok vec =>
      rw [hnv] at h
      simp only at h
      by_cases hc : (linkEdges m i).length = 0 ∧ rule ≠ []
      · rw [if_pos hc] at h; cases h
      · rw [if_neg hc] at h
        injection h with h'
        subst h'
        intro j hj
        have hne : j ≠ i := by
          intro hji
          rw [hji] at hj
          exact hb hj
        exact ⟨hj, coOf_updateCo_ne m i _ j hne⟩

theorem alignAllVerts_fold_stepPres (R : Remesher) (rule : List Int) :
    ∀ (l : List Nat) (acc m' : Mesh),
      l.foldlM (alignVertexStep R rule) acc = .ok m' → stepPres acc m' := by
  intro l
  induction l with
  | nil =>
    intro acc m' h
    injection h with h'
    subst h'
    exact stepPres_refl _
  | cons i l ih =>
    intro acc m' h
    rw [List.foldlM_cons] at h
    cases hstep : alignVertexStep R rule acc i with
    | error e => rw [hstep] at h; cases h
    | ok acc' =>
      rw [hstep] at h
      exact stepPres_trans (alignVertexStep_stepPres hstep) (ih acc' m' h)

theorem reprojectVert_stepPres (R : Remesher) (m : Mesh) (i : Nat) :
    stepPres m (reprojectVert R m i) := by
  unfold reprojectVert
  by_cases hb : isBoundaryVert m i
  · rw [if_pos hb]; exact stepPres_refl m
  · rw [if_neg hb]
    cases hfn : R.findNearest (coOf m i) with
    | none => exact stepPres_refl m
    | some loc =>
      intro j hj
      have hne : j ≠ i := by
        intro hji
        rw [hji] at hj
        exact hb hj
      exact ⟨hj, coOf_updateCo_ne m i loc j hne⟩

theorem reprojectAll_fold_stepPres (R : Remesher) :
    ∀ (l : List Nat) (acc : Mesh), stepPres acc (l.foldl (reprojectVert R) acc) := by
  intro l
  induction l with
  | nil => intro acc; exact stepPres_refl acc
  | cons i l ih =>
    intro acc
    exact stepPres_trans (reprojectVert_stepPres R acc i) (ih (reprojectVert R acc i))

theorem reprojectAll_stepPres (R : Remesher) (m : Mesh) : stepPres m (reprojectAll R m) :=
  reprojectAll_fold_stepPres R (vertIds m) m

theorem alignVerts_stepPres {R : Remesher} {rule : List Int} {m m' : Mesh}
    (h : alignVerts R rule m = .ok m') : stepPres m m' := by
  unfold alignVerts at h
  cases ha : alignAllVerts R rule m with
  | error e => rw [ha] at h; cases h
  | ok m2 =>
    rw [ha] at h
    injection h with h'
    subst h'
    exact stepPres_trans (alignAllVerts_fold_stepPres R rule (vertIds m) m m2 ha)
      (reprojectAll_stepPres R m2)

theorem collapseStepAcc_inv (m : Mesh) (lower : ℚ) (acc : List (Nat × Nat) × List Nat)
    (e : Nat × Nat) (h : collapseAccInv m acc) :
    collapseAccInv m (collapseStepAcc m lower acc e) := by
  obtain ⟨hlock, hends, hnb, hbe, hpw⟩ := h
  unfold collapseStepAcc
  by_cases h1 : lenLT (coOf m e.1 - coOf m e.2) lower && !isBoundaryEdge m e
  · rw [if_pos h1]
    by_cases h2 : e.1 ∈ acc.2 ∨ e.2 ∈ acc.2
    · rw [if_pos h2]
      exact ⟨hlock, hends, hnb, hbe, hpw⟩
    · rw [if_neg h2]
      push_neg at h2
      obtain ⟨he1, he2⟩ := h2
      have hbef : isBoundaryEdge m e = false := by
        have h1' := h1
        simp only [Bool.and_eq_true, Bool.not_eq_true'] at h1'
        exact h1'.2
      refine ⟨?_, ?_, ?_, ?_, ?_⟩
      · intro i hi
        exact List.mem_cons_of_mem _ (List.mem_cons_of_mem _ (hlock i hi))
      · intro e' he'
        rcases List.mem_append.mp he' with hold | hnew
        · obtain ⟨ha, hb⟩ := hends e' hold
          exact ⟨List.mem_cons_of_mem _ (List.mem_cons_of_mem _ ha),
            List.mem_cons_of_mem _ (List.mem_cons_of_mem _ hb)⟩
        · rw [List.mem_singleton.mp hnew]
          exact ⟨List.mem_cons_self _ _, List.mem_cons_of_mem _ (List.mem_cons_self _ _)⟩
      · intro e' he'
        rcases List.mem_append.mp he' with hold | hnew
        · exact hnb e' hold
        · rw [List.mem_singleton.mp hnew]
          exact ⟨fun hc => he1 (hlock _ hc), fun hc => he2 (hlock _ hc)⟩
      · intro e' he'
        rcases List.mem_append.mp he' with hold | hnew
        · exact hbe e' hold
        · rw [List.mem_singleton.mp hnew]
          exact hbef
      · rw [List.pairwise_append]
        refine ⟨hpw, List.pairwise_singleton _ _, ?_⟩
        intro a ha b hb
        rw [List.mem_singleton.mp hb]
        obtain ⟨ha1, ha2⟩ := hends a ha
        exact ⟨fun hc => he1 (hc ▸ ha1), fun hc => he2 (hc ▸ ha1),
          fun hc => he1 (hc ▸ ha2), fun hc => he2 (hc ▸ ha2)⟩
  · rw [if_neg h1]
    exact ⟨hlock, hends, hnb, hbe, hpw⟩

theorem collapseFold_inv (m : Mesh) (lower : ℚ) :
    ∀ (l : List (Nat × Nat)) (acc : List (Nat × Nat) × List Nat), collapseAccInv m acc →
      collapseAccInv m (l.foldl (collapseStepAcc m lower) acc) := by
  intro l
  induction l with
  | nil => intro acc h; exact h
  | cons e l ih =>
    intro acc h
    exact ih _ (collapseStepAcc_inv m lower acc e h)

theorem collapseSel_inv (m : Mesh) (lower : ℚ) :
    collapseAccInv m (m.edges.foldl (collapseStepAcc m lower) ([], boundaryLock m)) := by
  apply collapseFold_inv
  refine ⟨fun i hi => hi, ?_, ?_, ?_, List.Pairwise.nil⟩ <;> intro e he <;> cases he

theorem mem_boundaryLock (m : Mesh) (i : Nat) (hv : i ∈ vertIds m)
    (hb : isBoundaryVert m i = true) : i ∈ boundaryLock m := by
  unfold boundaryLock
  unfold vertIds at hv
  rcases List.mem_map.mp hv with ⟨v, hvm, hvi⟩
  apply List.mem_map.mpr
  refine ⟨v, ?_, hvi⟩
  apply List.mem_filter.mpr
  exact ⟨hvm, by rw [hvi]; exact hb⟩

theorem dissolveSel_not_boundary (m : Mesh) :
    ∀ i ∈ dissolveSel m, isBoundaryVert m i = false := by
  intro i hi
  unfold dissolveSel at hi
  rcases List.mem_map.mp hi with ⟨v, hvm, hvi⟩
  rcases List.mem_filter.mp hvm with ⟨_, hcond⟩
  simp only [Bool.and_eq_true, Bool.not_eq_true'] at hcond
  rw [← hvi]
  exact hcond.2

theorem collapseSel_not_locked (m : Mesh) (lower : ℚ) :
    ∀ e ∈ collapseSel m lower, e.1 ∉ boundaryLock m ∧ e.2 ∉ boundaryLock m := by
  intro e he
  exact (collapseSel_inv m lower).2.2.1 e he

theorem enforceEdgeLength_stepPres (ops : MeshOps) (hops : OpsPreserveBoundary ops)
    (el bias : ℚ) (m : Mesh) : stepPres m (enforceEdgeLength ops el bias m) := by
  simp only [enforceEdgeLength]
  have h1 : stepPres m
      (ops.triangulate (ops.subdivideEdges m (subdivideSel m (upperLength el bias)))) :=
    stepPres_trans (hops.subdivide m _) (hops.triangulate _)
  set m1 := ops.triangulate (ops.subdivideEdges m (subdivideSel m (upperLength el bias)))
    with hm1
  have h2 : stepPres m1 (ops.triangulate (ops.dissolveVerts m1 (dissolveSel m1))) :=
    stepPres_trans (hops.dissolve m1 _ (dissolveSel_not_boundary m1)) (hops.triangulate _)
  set m2 := ops.triangulate (ops.dissolveVerts m1 (dissolveSel m1)) with hm2
  have h3 : stepPres m2
      (ops.beautifyFill (ops.collapse m2 (collapseSel m2 (lowerLength el bias)))) :=
    stepPres_trans (hops.collapse m2 _ (collapseSel_not_locked m2 _)) (hops.beautify _)
  exact stepPres_trans h1 (stepPres_trans h2 h3)

theorem remeshLoop_stepPres (ops : MeshOps) (hops : OpsPreserveBoundary ops)
    (R : Remesher) (el : ℚ) (rule : List Int) :
    ∀ (n : Nat) (m out : Mesh), remeshLoop ops R el rule n m = .ok out → stepPres m out := by
  intro n
  induction n with
  | zero =>
    intro m out h
    injection h with h'
    subst h'
    exact stepPres_refl _
  | succ n ih =>
    intro m out h
    rw [remeshLoop] at h
    cases hal : alignVerts R rule (enforceEdgeLength ops el defaultBias m) with
    | error e => rw [hal] at h; cases h
    | ok m1 =>
      rw [hal] at h
      exact stepPres_trans (enforceEdgeLength_stepPres ops hops el defaultBias m)
        (stepPres_trans (alignVerts_stepPres hal)
          (stepPres_trans (reprojectAll_stepPres R m1) (ih _ out h)))

theorem linkEdges_congr {m m' : Mesh} (h : m'.edges = m.edges) (i : Nat) :
    linkEdges m' i = linkEdges m i := by
  unfold linkEdges
  rw [h]

theorem isBoundaryVert_congr {m m' : Mesh} (he : m'.edges = m.edges)
    (hf : m'.faces = m.faces) (i : Nat) : isBoundaryVert m' i = isBoundaryVert m i := by
  unfold isBoundaryVert isBoundaryEdge edgeFaceCount
  rw [linkEdges_congr he, hf]

theorem nearestBoundaryVector_ok (R : Remesher) (p : Vec3) (h : R.boundaryData ≠ []) :
    ∃ v, nearestBoundaryVector R p = .ok v := by
  unfold nearestBoundaryVector
  cases hd : R.boundaryData with
  | nil => exact absurd hd h
  | cons d ds => exact ⟨_, rfl⟩

theorem nearestBoundaryVector_empty (R : Remesher) (p : Vec3) (h : R.boundaryData = []) :
    nearestBoundaryVector R p = .error .noBoundary := by
  unfold nearestBoundaryVector
  rw [h]

theorem alignVertexStep_topology {R : Remesher} {rule : List Int} {m : Mesh} {i : Nat}
    {m' : Mesh} (h : alignVertexStep R rule m i = .ok m') :
    m'.edges = m.edges ∧ m'.faces = m.faces := by
  unfold alignVertexStep at h
  by_cases hb : isBoundaryVert m i
  · rw [if_pos hb] at h
    injection h with h'
    subst h'
    exact ⟨rfl, rfl⟩
  · rw [if_neg hb] at h
    cases hnv : nearestBoundaryVector R (coOf m i) with
    | error e => rw [hnv] at h; cases h
    | ok vec =>
      rw [hnv] at h
      simp only at h
      by_cases hc : (linkEdges m i).length = 0 ∧ rule ≠ []
      · rw [if_pos hc] at h; cases h
      · rw [if_neg hc] at h
        injection h with h'
        subst h'
        exact ⟨rfl, rfl⟩

theorem foldlM_align_ok (R : Remesher) (rule : List Int) (m : Mesh)
    (hR : R.boundaryData ≠ [])
    (hI : ∀ i ∈ vertIds m, isBoundaryVert m i = false → linkEdges m i ≠ []) :
    ∀ (l : List Nat), (∀ i ∈ l, i ∈ vertIds m) →
      ∀ acc : Mesh, acc.edges = m.edges → acc.faces = m.faces →
      ∃ m', l.foldlM (alignVertexStep R rule) acc = .ok m' := by
  intro l
  induction l with
  | nil => intro _ acc _ _; exact ⟨acc, rfl⟩
  | cons i l ih =>
    intro hmem acc he hf
    rw [List.foldlM_cons]
    by_cases hb : isBoundaryVert acc i
    · have hstep : alignVertexStep R rule acc i = .ok acc := by
        unfold alignVertexStep
        rw [if_pos hb]
      rw [hstep]
      exact ih (fun j hj => hmem j (List.mem_cons_of_mem i hj)) acc he hf
    · obtain ⟨vec, hnv⟩ := nearestBoundaryVector_ok R (coOf acc i) hR
      have hle : linkEdges acc i ≠ [] := by
        rw [linkEdges_congr he]
        apply hI i (hmem i (List.mem_cons_self i l))
        rw [← isBoundaryVert_congr he hf]
        exact Bool.not_eq_true _ ▸ (by simpa using hb)
      have hc : ¬((linkEdges acc i).length = 0 ∧ rule ≠ []) := by
        intro ⟨h0, _⟩
        exact hle (List.length_eq_zero.mp h0)
      have hstep : alignVertexStep R rule acc i
          = .ok (updateCo acc i (coOf acc i +
            (((rule.foldl (fun c j => c + (bestLocations (coOf acc i) vec
                ((linkEdges acc i).map fun e => coOf acc (otherVert e i))).getD
                (pymod j (linkEdges acc i).length) vzero) (coOf acc i))
              / ((rule.length : ℚ) + 1) - coOf acc i) -
              (dot ((rule.foldl (fun c j => c + (bestLocations (coOf acc i) vec
                ((linkEdges acc i).map fun e => coOf acc (otherVert e i))).getD
                (pymod j (linkEdges acc i).length) vzero) (coOf acc i))
              / ((rule.length : ℚ) + 1) - coOf acc i) (normalOf acc i)) •
                normalOf acc i))) := by
        unfold alignVertexStep
        rw [if_neg hb, hnv]
        simp only
        rw [if_neg hc]
      rw [hstep]
      exact ih (fun j hj => hmem j (List.mem_cons_of_mem i hj)) _
        (by rw [updateCo_edges, he]) (by rw [updateCo_faces, hf])

theorem allInteriorHaveEdges_spec (m : Mesh) (h : allInteriorHaveEdges m = true) :
    ∀ i ∈ vertIds m, isBoundaryVert m i = false → linkEdges m i ≠ [] := by
  intro i hi hib hle
  unfold allInteriorHaveEdges at h
  rw [List.all_eq_true] at h
  rcases List.mem_map.mp hi with ⟨v, hvm, hvi⟩
  have hv := h v hvm
  rw [hvi, hib, hle] at hv
  simp at hv

theorem hasInteriorVert_spec (m : Mesh) (h : hasInteriorVert m = true) :
    ∃ i ∈ vertIds m, isBoundaryVert m i = false := by
  unfold hasInteriorVert at h
  rw [List.any_eq_true] at h
  obtain ⟨v, hvm, hvb⟩ := h
  exact ⟨v.id, List.mem_map.mpr ⟨v, hvm, rfl⟩, by simpa using hvb⟩

theorem foldlM_align_noBoundary (R : Remesher) (rule : List Int) (m : Mesh)
    (hR : R.boundaryData = []) :
    ∀ l : List Nat, (∃ i ∈ l, isBoundaryVert m i = false) →
      l.foldlM (alignVertexStep R rule) m = .error .noBoundary := by
  intro l
  induction l with
  | nil => rintro ⟨i, hi, _⟩; cases hi
  | cons i l ih =>
    rintro ⟨j, hj, hjb⟩
    rw [List.foldlM_cons]
    by_cases hb : isBoundaryVert m i
    · have hstep : alignVertexStep R rule m i = .ok m := by
        unfold alignVertexStep
        rw [if_pos hb]
      rw [hstep]
      apply ih
      refine ⟨j, ?_, hjb⟩
      rcases List.mem_cons.mp hj with hji | hjl
      · rw [hji] at hjb
        rw [hjb] at hb
        cases hb
      · exact hjl
    · have hstep : alignVertexStep R rule m i = .error .noBoundary := by
        unfold alignVertexStep
        rw [if_neg hb, nearestBoundaryVector_empty R _ hR]
      rw [hstep]
      rfl

theorem alignAllVerts_noBoundary (R : Remesher) (rule : List Int) (m : Mesh)
    (hR : R.boundaryData = []) (hm : hasInteriorVert m = true) :
    alignAllVerts R rule m = .error .noBoundary := by
  unfold alignAllVerts
  exact foldlM_align_noBoundary R rule m hR (vertIds m) (hasInteriorVert_spec m hm)

theorem Vec3.add_comm' (a b : Vec3) : a + b = b + a := by
  rw [Vec3.ext_iff']
  refine ⟨?_, ?_, ?_⟩ <;> simp <;> ring

theorem Vec3.add_assoc' (a b c : Vec3) : a + b + c = a + (b + c) := by
  rw [Vec3.ext_iff']
  refine ⟨?_, ?_, ?_⟩ <;> simp <;> ring

theorem Vec3.add_zero' (a : Vec3) : a + vzero = a := by
  rw [Vec3.ext_iff']
  refine ⟨?_, ?_, ?_⟩ <;> simp

theorem Vec3.zero_add' (a : Vec3) : vzero + a = a := by
  rw [Vec3.ext_iff']
  refine ⟨?_, ?_, ?_⟩ <;> simp

theorem foldl_add_shift (l : List Vec3) (v : Vec3) :
    l.foldl (· + ·) v = v + l.foldl (· + ·) vzero := by
  induction l generalizing v with
  | nil => simp [List.foldl, Vec3.add_zero']
  | cons a l ih =>
    simp only [List.foldl_cons]
    rw [ih (v + a), ih (vzero + a), Vec3.zero_add', Vec3.add_assoc']

theorem foldl_add_vsum (rule : List Int) (g : Int → Vec3) (v : Vec3) :
    rule.foldl (fun c j => c + g j) v = v + vsum (rule.map g) := by
  unfold vsum
  rw [← List.foldl_map]
  exact foldl_add_shift (rule.map g) v

theorem specPass_eq_enforce (ops : MeshOps) (el : ℚ) (m : Mesh) :
    beautifyStep ops (collapseStep ops (lowerLength el defaultBias)
      (triangulateStep ops (dissolveStep ops (triangulateStep ops
        (subdivideStep ops (upperLength el defaultBias) m)))))
      = enforceEdgeLength ops el defaultBias m := rfl

theorem alignVerts_of_alignAll_error {R : Remesher} {rule : List Int} {m : Mesh}
    {e : RemeshErr} (h : alignAllVerts R rule m = .error e) :
    alignVerts R rule m = .error e := by
  unfold alignVerts
  rw [h]
  rfl

theorem alignVerts_of_alignAll_ok {R : Remesher} {rule : List Int} {m m2 : Mesh}
    (h : alignAllVerts R rule m = .ok m2) :
    alignVerts R rule m = .ok (reprojectAll R m2) := by
  unfold alignVerts
  rw [h]
  rfl

/-- C1: for every run of the remesher whose external topology operators meet
their boundary-preservation contracts, every vertex on the input mesh's
boundary retains its exact original position in the output and is still a
boundary vertex of the output — the collapse selection starts its lock with
all boundary vertices and skips any edge touching the lock, the dissolve
selection exempts boundary vertices, and both vertex relaxation and
reprojection skip boundary vertices. -/
theorem claim1_boundary_invariance (ops : MeshOps) (hops : OpsPreserveBoundary ops)
    (R : Remesher) (el : ℚ) (iters : Nat) (quads : Bool) (m out : Mesh)
    (h : remeshRun ops R el iters quads m = .ok out) : stepPres m out := by
  unfold remeshRun at h
  cases hl : remeshLoop ops R el (ruleFor quads) iters m with
  | error e => rw [hl] at h; cases h
  | ok mid =>
    rw [hl] at h
    injection h with h'
    have h1 := remeshLoop_stepPres ops hops R el (ruleFor quads) iters m mid hl
    cases quads with
    | false =>
      simp only [Bool.false_eq_true, if_false] at h'
      rw [← h']
      exact h1
    | true =>
      simp only [if_true] at h'
      rw [← h']
      exact stepPres_trans h1 (hops.join mid)

theorem idOps_preserve : OpsPreserveBoundary idOps :=
  ⟨fun m _ => stepPres_refl m, fun m => stepPres_refl m, fun m _ _ => stepPres_refl m,
    fun m _ _ => stepPres_refl m, fun m => stepPres_refl m, fun m => stepPres_refl m⟩

/-- Witness for C1: the identity operators satisfy the contracts, and a
one-iteration run on the flat square (all of whose vertices are boundary
vertices) preserves them. -/
theorem claim1_boundary_invariance_witness :
    OpsPreserveBoundary idOps ∧ stepPres sqMesh sqMesh :=
  ⟨idOps_preserve,
    claim1_boundary_invariance idOps idOps_preserve sqRemesher 1 1 false sqMesh sqMesh
      (by decide)⟩

/-- C2: the driver performs exactly `iterations` passes and nothing else: the
loop at zero is the identity, and each further iteration prepends exactly one
pass executing the operator sequence in the spec's order — subdivide long
edges, triangulate, dissolve low-valence interior vertices (minimum valence
5), triangulate, collapse short edges, beautify by angle, align all
non-boundary vertices using the selected rule, then reproject (reprojection in
fact runs twice, cf. C9).  The recursion is on the bare iteration counter, so
there is no convergence detection and no early exit besides a raised error. -/
theorem claim2_fixed_pass_pipeline (ops : MeshOps) (R : Remesher) (el : ℚ)
    (rule : List Int) (n : Nat) (m : Mesh) :
    remeshLoop ops R el rule 0 m = .ok m ∧
    remeshLoop ops R el rule (n + 1) m
      = specPassSequence ops R el rule m >>= remeshLoop ops R el rule n := by
  refine ⟨rfl, ?_⟩
  have hsp : specPassSequence ops R el rule m
      = (alignAllVerts R rule (enforceEdgeLength ops el defaultBias m)).map
          fun m2 => reprojectAll R (reprojectAll R m2) := by
    unfold specPassSequence
    rw [specPass_eq_enforce]
  rw [hsp]
  simp only [remeshLoop]
  cases hal : alignAllVerts R rule (enforceEdgeLength ops el defaultBias m) with
  | error e => rw [alignVerts_of_alignAll_error hal]; rfl
  | ok m2 => rw [alignVerts_of_alignAll_ok hal]; rfl

/-- C3: for a non-boundary vertex with at least one incident edge, the
alignment step moves it to
`new_pos = (v.co + Σ rule-selected ranked neighbors) / (len(rule) + 1)` with
each (possibly negative) rule index wrapped modulo the valence, after removing
from the displacement `new_pos - v.co` its component along the vertex
normal. -/
theorem claim3_alignment_formula (R : Remesher) (rule : List Int) (m : Mesh) (i : Nat)
    (vec : Vec3) (hb : isBoundaryVert m i = false) (hle : linkEdges m i ≠ [])
    (hnv : nearestBoundaryVector R (coOf m i) = .ok vec) :
    alignVertexStep R rule m i
      = .ok (updateCo m i (specAlignedPos (coOf m i) (normalOf m i)
          (specNewPos (coOf m i)
            (specSelected
              (bestLocations (coOf m i) vec
                ((linkEdges m i).map fun e => coOf m (otherVert e i)))
              (linkEdges m i).length rule)))) := by
  unfold alignVertexStep
  rw [if_neg (by rw [hb]; exact Bool.false_ne_true), hnv]
  simp only
  rw [if_neg (fun hc => hle (List.length_eq_zero.mp hc.1))]
  unfold specAlignedPos tangentProject specNewPos specSelected
  rw [foldl_add_vsum rule
    (fun j => (bestLocations (coOf m i) vec
      ((linkEdges m i).map fun e => coOf m (otherVert e i))).getD
        (pymod j (linkEdges m i).length) vzero) (coOf m i)]
  rw [List.length_map]

/-- Witness for C3 at the interior center vertex of the flat square fan. -/
theorem claim3_alignment_formula_witness :
    isBoundaryVert fanMesh 4 = false ∧ linkEdges fanMesh 4 ≠ [] ∧
    nearestBoundaryVector fanRemesher (coOf fanMesh 4) = .ok ⟨0, -2, 0⟩ ∧
    alignVertexStep fanRemesher (ruleFor false) fanMesh 4
      = .ok (updateCo fanMesh 4 (specAlignedPos (coOf fanMesh 4) (normalOf fanMesh 4)
          (specNewPos (coOf fanMesh 4)
            (specSelected
              (bestLocations (coOf fanMesh 4) ⟨0, -2, 0⟩
                ((linkEdges fanMesh 4).map fun e => coOf fanMesh (otherVert e 4)))
              (linkEdges fanMesh 4).length (ruleFor false))))) :=
  ⟨by decide, by decide, by decide,
    claim3_alignment_formula fanRemesher (ruleFor false) fanMesh 4 ⟨0, -2, 0⟩
      (by decide) (by decide) (by decide)⟩

/-- C4 (amended): the alignment step ranks the neighbor positions ascending by
the source key `abs(normalized(neighbor - v.co) · dir)` — the FIRST element is
the most boundary-perpendicular neighbor; the most boundary-aligned neighbor
(connecting edge most parallel to the boundary tangent) sorts LAST, and the
ranked list is a permutation of the neighbor positions. -/
theorem claim4_neighbor_ranking (vco dir : Vec3) (ns : List Vec3) :
    (bestLocations vco dir ns).Pairwise (fun a b => keyR vco dir a ≤ keyR vco dir b) ∧
    (bestLocations vco dir ns).Perm ns := by
  constructor
  · have hs : (bestLocations vco dir ns).Pairwise
        (fun a b => sortKeySq vco dir a ≤ sortKeySq vco dir b) := by
      unfold bestLocations
      haveI : IsTotal Vec3 (fun a b => sortKeySq vco dir a ≤ sortKeySq vco dir b) :=
        ⟨fun a b => le_total _ _⟩
      haveI : IsTrans Vec3 (fun a b => sortKeySq vco dir a ≤ sortKeySq vco dir b) :=
        ⟨fun _ _ _ hab hbc => le_trans hab hbc⟩
      exact List.sorted_insertionSort _ ns
    exact hs.imp fun h => (keyR_le_iff vco dir _ _).mpr h
  · unfold bestLocations
    exact List.perm_insertionSort _ ns

/-- C4 counterexample: at the origin with boundary direction `(1,0,0)`, the
neighbor `(1,0,0)` is the most boundary-aligned (key 1) and `(0,1,0)` the most
perpendicular (key 0); the ranking puts the perpendicular neighbor first, so
the claim's "most boundary-aligned neighbor first" is false here. -/
theorem claim4_neighbor_ranking_counterexample :
    bestLocations vzero ⟨1, 0, 0⟩ [⟨1, 0, 0⟩, ⟨0, 1, 0⟩] = [⟨0, 1, 0⟩, ⟨1, 0, 0⟩] ∧
    keyR vzero ⟨1, 0, 0⟩ ⟨0, 1, 0⟩ < keyR vzero ⟨1, 0, 0⟩ ⟨1, 0, 0⟩ := by
  constructor
  · decide
  · rw [keyR_eq_sqrt, keyR_eq_sqrt,
      show sortKeySq vzero ⟨1, 0, 0⟩ ⟨0, 1, 0⟩ = 0 from by decide,
      show sortKeySq vzero ⟨1, 0, 0⟩ ⟨1, 0, 0⟩ = 1 from by decide,
      Rat.cast_zero, Rat.cast_one, Real.sqrt_zero, Real.sqrt_one]
    norm_num

/-- C5 (amended): if the boundary field is empty, a run whose first pass's
edge-length enforcement leaves any non-boundary vertex fails with
`NoBoundary` — but the failing field query happens only at the alignment step,
after `enforce_edge_length` has already been applied to (and possibly mutated)
the working mesh. -/
theorem claim5_no_boundary_failure (ops : MeshOps) (R : Remesher) (el : ℚ)
    (rule : List Int) (n : Nat) (m : Mesh) (hR : R.boundaryData = [])
    (hm : hasInteriorVert (enforceEdgeLength ops el defaultBias m) = true) :
    remeshLoop ops R el rule (n + 1) m = .error .noBoundary := by
  simp only [remeshLoop]
  rw [alignVerts_of_alignAll_error
    (alignAllVerts_noBoundary R rule (enforceEdgeLength ops el defaultBias m) hR hm)]

/-- Witness for C5 on the closed icosahedron with the spec-modelled
operators. -/
theorem claim5_no_boundary_failure_witness :
    icoRemesher.boundaryData = [] ∧
    hasInteriorVert (enforceEdgeLength modelOps 11 defaultBias icoMesh) = true ∧
    remeshLoop modelOps icoRemesher 11 (ruleFor false) 1 icoMesh = .error .noBoundary :=
  ⟨by decide, by decide,
    claim5_no_boundary_failure modelOps icoRemesher 11 (ruleFor false) 0 icoMesh
      (by decide) (by decide)⟩

/-- C5 counterexample: on the closed icosahedron the run does fail with
`NoBoundary`, but not before any topology mutation: the first pass's
`enforce_edge_length` has already collapsed the short edge `(0, 1)` — the
working mesh differs from the input — when the alignment step first queries
the empty boundary field and raises. -/
theorem claim5_no_boundary_failure_counterexample :
    remeshLoop modelOps icoRemesher 11 (ruleFor false) 1 icoMesh
        = .error .noBoundary ∧
    enforceEdgeLength modelOps 11 defaultBias icoMesh ≠ icoMesh :=
  ⟨by decide, by decide⟩

/-- C6 (amended): `enforce_edge_length` computes the band from its own bias
parameter, `upper = edge_length * (1 + bias)` and
`lower = edge_length * (1 - bias)`; `remesh` exposes no bias parameter and
every pass of the driver loop calls `enforce_edge_length` with the fixed
default bias `0.333`, so the band never varies with anything the caller
passes to the run. -/
theorem claim6_band_formula (el bias : ℚ) :
    (upperLength el bias = el * (1 + bias) ∧ lowerLength el bias = el * (1 - bias)) ∧
    defaultBias = 333 / 1000 ∧
    ∀ (ops : MeshOps) (R : Remesher) (rule : List Int) (n : Nat) (m : Mesh),
      remeshLoop ops R el rule (n + 1) m
        = alignVerts R rule (enforceEdgeLength ops el (333 / 1000) m) >>= fun m1 =>
            remeshLoop ops R el rule n (reprojectAll R m1) := by
  refine ⟨⟨by unfold upperLength; ring, by unfold lowerLength; ring⟩, rfl, ?_⟩
  intro ops R rule n m
  simp only [remeshLoop]
  rw [show (333 / 1000 : ℚ) = defaultBias from rfl]
  cases hal : alignVerts R rule (enforceEdgeLength ops el defaultBias m) <;> rfl

/-- C6 counterexample: with target edge length 1 and a caller bias of 0 the
claim predicts the pass subdivides both long edges of the triangle (band top
1); the selection a pass actually computes uses the fixed default bias 0.333
(band top 1.333) and is empty — the band does not follow a caller-supplied
bias. -/
theorem claim6_band_formula_counterexample :
    subdivideSel triMesh (upperLength 1 defaultBias) = [] ∧
    subdivideSel triMesh (upperLength 1 0) = [(0, 1), (1, 2)] :=
  ⟨by decide, by decide⟩

theorem collapseFold_mem (m : Mesh) (lower : ℚ) (P : (Nat × Nat) → Prop) :
    ∀ (l : List (Nat × Nat)) (acc : List (Nat × Nat) × List Nat),
      (∀ e ∈ acc.1, P e) → (∀ e ∈ l, P e) →
      ∀ e ∈ (l.foldl (collapseStepAcc m lower) acc).1, P e := by
  intro l
  induction l with
  | nil => intro acc ha _ e he; exact ha e he
  | cons e0 l ih =>
    intro acc ha hl
    apply ih
    · intro e he
      unfold collapseStepAcc at he
      by_cases h1 : lenLT (coOf m e0.1 - coOf m e0.2) lower && !isBoundaryEdge m e0
      · rw [if_pos h1] at he
        by_cases h2 : e0.1 ∈ acc.2 ∨ e0.2 ∈ acc.2
        · rw [if_pos h2] at he
          exact ha e he
        · rw [if_neg h2] at he
          rcases List.mem_append.mp he with hold | hnew
          · exact ha e hold
          · rw [List.mem_singleton.mp hnew]
            exact hl e0 (List.mem_cons_self e0 l)
      · rw [if_neg h1] at he
        exact ha e he
    · intro e he
      exact hl e (List.mem_cons_of_mem e0 he)

theorem wfMesh_vertIds (m : Mesh) (hwf : wfMesh m = true) :
    ∀ e ∈ m.edges, e.1 ∈ vertIds m ∧ e.2 ∈ vertIds m := by
  intro e he
  unfold wfMesh at hwf
  rw [List.all_eq_true] at hwf
  have h := hwf e he
  rw [Bool.and_eq_true] at h
  exact ⟨by simpa using h.1, by simpa using h.2⟩

/-- C7: within a single call to `collapse_short_edges` on a well-formed mesh
(every edge endpoint names a vertex, as bmesh guarantees), the chosen collapse
edges are pairwise vertex-disjoint (no vertex participates in more than one
collapse), no boundary edge is collapsed, and any short edge touching a
boundary vertex is skipped. -/
theorem claim7_collapse_selection (m : Mesh) (lower : ℚ) (hwf : wfMesh m = true) :
    collapseSelOK m lower := by
  obtain ⟨hlock, hends, hnb, hbe, hpw⟩ := collapseSel_inv m lower
  have hsub : ∀ e ∈ collapseSel m lower, e ∈ m.edges := by
    apply collapseFold_mem m lower (· ∈ m.edges) m.edges ([], boundaryLock m)
    · intro e he; cases he
    · intro e he; exact he
  refine ⟨hpw, hbe, ?_⟩
  intro e he
  obtain ⟨h1, h2⟩ := hnb e he
  obtain ⟨hv1, hv2⟩ := wfMesh_vertIds m hwf e (hsub e he)
  constructor
  · cases hb1 : isBoundaryVert m e.1 with
    | false => rfl
    | true => exact absurd (mem_boundaryLock m e.1 hv1 hb1) h1
  · cases hb2 : isBoundaryVert m e.2 with
    | false => rfl
    | true => exact absurd (mem_boundaryLock m e.2 hv2 hb2) h2

/-- Witness for C7 on the icosahedral mesh, whose collapse selection at the
pass band of `edge_length = 11` is the single short edge `(0, 1)`. -/
theorem claim7_collapse_selection_witness :
    wfMesh icoMesh = true ∧ collapseSelOK icoMesh (lowerLength 11 defaultBias) :=
  ⟨by decide, claim7_collapse_selection icoMesh (lowerLength 11 defaultBias) (by decide)⟩

/-- C8 (amended): `remesh` performs no parameter validation and never raises
an invalid-parameter error: with an iteration count of zero the loop body
never executes and the run completes normally, whatever the edge length. -/
theorem claim8_no_validation (ops : MeshOps) (R : Remesher) (el : ℚ) (m : Mesh) :
    remeshRun ops R el 0 false m = .ok m := rfl

/-- C8 counterexample: a run called with non-positive edge length (−1) and
zero iterations — both invalid per the claim — completes and returns the mesh
instead of aborting with any error. -/
theorem claim8_no_validation_counterexample :
    remeshRun modelOps sqRemesher (-1) 0 false triMesh = .ok triMesh := by
  decide

/-- C9: each pass of the driver applies reprojection twice to the aligned
mesh: `align_verts` itself ends by reprojecting, and the driver reprojects
again immediately after it returns. -/
theorem claim9_double_reprojection (ops : MeshOps) (R : Remesher) (el : ℚ)
    (rule : List Int) (m : Mesh) :
    remeshLoop ops R el rule 1 m
      = (alignAllVerts R rule (enforceEdgeLength ops el defaultBias m)).map
          fun m1 => reprojectAll R (reprojectAll R m1) := by
  simp only [remeshLoop]
  cases hal : alignAllVerts R rule (enforceEdgeLength ops el defaultBias m) with
  | error e => rw [alignVerts_of_alignAll_error hal]; rfl
  | ok m2 => rw [alignVerts_of_alignAll_ok hal]; rfl

/-- C10: the alignment loop is total on meshes all of whose non-boundary
vertices have an incident edge — each wrapped rank access
`best_locations[i % valence]` stays in bounds because the wrapped index is
below the valence and the ranked list has exactly valence entries — while on
a mesh with an isolated non-boundary vertex the loop fails (`i % 0`, Python's
`ZeroDivisionError`). -/
theorem claim10_alignment_totality :
    (∀ (j : Int) (n : Nat), n ≠ 0 → pymod j n < n) ∧
    (∀ (vco dir : Vec3) (ns : List Vec3), (bestLocations vco dir ns).length = ns.length) ∧
    (∀ (R : Remesher) (rule : List Int) (m : Mesh), R.boundaryData ≠ [] →
      allInteriorHaveEdges m = true → ∃ m', alignAllVerts R rule m = .ok m') ∧
    alignAllVerts isoRemesher (ruleFor false) isoMesh = .error .zeroValence := by
  refine ⟨fun j n hn => pymod_lt j n hn, ?_, ?_, by decide⟩
  · intro vco dir ns
    unfold bestLocations
    exact List.length_insertionSort _ ns
  · intro R rule m hR hI
    unfold alignAllVerts
    exact foldlM_align_ok R rule m hR (allInteriorHaveEdges_spec m hI) (vertIds m)
      (fun i hi => hi) m rfl rfl
